import Mathlib

/-!
Shallow embedding of `jina/types/arrays/traversable.py`
(class `TraversableSequence`): the document data model, the path-driven
traversal engine (`traverse`, `_traverse`, `traverse_flat_per_path`,
`traverse_flat`), the traversal-path validator
(`_check_traversal_path_type`) and the batch generator (`batch`).

Python generators are embedded as the pair of (the list of values the
generator yields before it stops or raises) and (an optional error it
raises at the end).  Object identity of a yielded collection (`yield docs`
yields an existing object, `DocumentArray(...)` builds a new one) is
recorded by a constructor tag.  The delegated random source
(`np.random.shuffle`) is modelled as an externally supplied index
permutation.
-/

namespace Jina

/-- The value stored under a named attribute of a Document, as Python sees
it: either `None`, or a present value with a given truthiness (an
empty-but-present array is `pyVal false`: present, falsy). -/
inductive AttrVal : Type where
  | pyNone : AttrVal
  | pyVal (truthy : Bool) : AttrVal
deriving DecidableEq, Repr

/-- A document: a tree node with an id, an ordered chunks (children)
collection, an ordered matches collection, and named attributes. -/
inductive Doc : Type where
  | node (id : Nat) (chunks : List Doc) («matches» : List Doc)
      (attrs : List (String × AttrVal)) : Doc

/-- `d.chunks` -/
def Doc.chunks : Doc → List Doc
  | .node _ c _ _ => c

/-- `d.matches` -/
def Doc.«matches» : Doc → List Doc
  | .node _ _ m _ => m

/-- `getattr(d, name)`: the attribute value, `None` when absent. -/
def Doc.getattr : Doc → String → AttrVal
  | .node _ _ _ attrs, name => ((attrs.lookup name).getD AttrVal.pyNone)

/-- Python truthiness of an attribute value (`None` is falsy). -/
def AttrVal.truthy : AttrVal → Bool
  | .pyNone => false
  | .pyVal b => b

/-- A collection yielded by a generator, tagged with how it was produced:
`sameRef c` is `yield docs` (an already-existing collection object is
yielded, no copy), `fresh c` is `yield DocumentArray(...)` (a newly
constructed collection). -/
inductive Yielded : Type where
  | sameRef (c : List Doc) : Yielded
  | fresh (c : List Doc) : Yielded

/-- The underlying list of documents of a yielded collection. -/
def Yielded.coll : Yielded → List Doc
  | .sameRef c => c
  | .fresh c => c

/-- Sequencing of generator runs (`for d in docs: yield from ...`): the
yields of each run are concatenated up to and including the first run
that raises, whose error is propagated. -/
def seqResults : List (List Yielded × Option Char) → List Yielded × Option Char
  | [] => ([], none)
  | r :: rest =>
    match r.2 with
    | some e => (r.1, some e)
    | none =>
      let t := seqResults rest
      (r.1 ++ t.1, t.2)

/-- `TraversableSequence._traverse(docs, path, filter_fn)`: recursive
descent over the path characters.  The result is the list of collections
the generator yields, together with the invalid path character of the
`ValueError` it raises, if it raises one. -/
def _traverse (filter_fn : Option (Doc → Bool)) :
    List Char → List Doc → List Yielded × Option Char
  | [], docs =>
    match filter_fn with
    | none => ([Yielded.sameRef docs], none)
    | some f => ([Yielded.fresh (docs.filter f)], none)
  | loc :: rest, docs =>
    if loc = 'r' then
      _traverse filter_fn rest docs
    else if loc = 'm' then
      seqResults (docs.map (fun d => _traverse filter_fn rest d.matches))
    else if loc = 'c' then
      seqResults (docs.map (fun d => _traverse filter_fn rest d.chunks))
    else
      ([], some loc)

/-- A Python value appearing as an element of a traversal-path
specification: a string, or some non-string value. -/
inductive PyVal : Type where
  | str (s : List Char) : PyVal
  | nonStr (tag : Nat) : PyVal

/-- The shape of a `traversal_paths` argument as a Python value: a bare
string, or a sequence (list) of values. -/
inductive TPSpec : Type where
  | strSpec (s : List Char) : TPSpec
  | listSpec (l : List PyVal) : TPSpec

/-- Python truthiness of a traversal-path specification (empty string and
empty list are falsy). -/
def TPSpec.truthy : TPSpec → Bool
  | .strSpec s => !s.isEmpty
  | .listSpec l => !l.isEmpty

/-- `_check_traversal_path_type(tp)` as a Boolean: `tp and not
isinstance(tp, str) and isinstance(tp, Sequence) and all(isinstance(p,
str) for p in tp)`.  A bare string fails `not isinstance(tp, str)`; a
list passes iff it is non-empty and every element is a string. -/
def _check_traversal_path_type : TPSpec → Bool
  | .strSpec _ => false
  | .listSpec l =>
    !l.isEmpty && l.all (fun v => match v with | .str _ => true | .nonStr _ => false)

/-- The path strings contained in a specification (used only after the
type check has passed, where every element is a string). -/
def TPSpec.paths : TPSpec → List (List Char)
  | .strSpec s => s.map (fun c => [c])
  | .listSpec l => l.filterMap (fun v => match v with | .str s => some s | .nonStr _ => none)

/-- Errors the embedded operations can raise. -/
inductive PyErr : Type where
  | typeError : PyErr
  | valueError (c : Char) : PyErr
  | batchSizeError : PyErr
deriving DecidableEq, Repr

/-- `TraversableSequence.traverse(self, traversal_paths, filter_fn)`:
check the specification type, then `for p in traversal_paths: yield from
self._traverse(self, p, filter_fn)`. -/
def traverse (self : List Doc) (traversal_paths : TPSpec)
    (filter_fn : Option (Doc → Bool)) : List Yielded × Option PyErr :=
  if _check_traversal_path_type traversal_paths then
    let r := seqResults ((TPSpec.paths traversal_paths).map
      (fun p => _traverse filter_fn p self))
    (r.1, r.2.map PyErr.valueError)
  else
    ([], some PyErr.typeError)

/-- Modelled from the spec: `DocumentArray._flatten`, the Flattener
capability supplied by the concrete collection type, is not under `src/`
(only the abstract method is).  Per the spec it collapses a nested
sequence of collections into one flat ordered collection, preserving
encounter order and keeping duplicates. -/
def _flatten (seq : List (List Doc)) : List Doc :=
  seq.flatten

/-- `TraversableSequence.traverse_flat_per_path`: for each path, yield
the Flattener applied to that path's traversal output.  A path whose
traversal raises contributes no yield: the error propagates while the
flattened results of the earlier paths have already been yielded. -/
def perPathGen (filter_fn : Option (Doc → Bool)) (self : List Doc) :
    List (List Char) → List (List Doc) × Option Char
  | [] => ([], none)
  | p :: rest =>
    let r := _traverse filter_fn p self
    match r.2 with
    | some e => ([], some e)
    | none =>
      let t := perPathGen filter_fn self rest
      (_flatten (r.1.map Yielded.coll) :: t.1, t.2)

/-- `TraversableSequence.traverse_flat_per_path(self, traversal_paths,
filter_fn)`. -/
def traverse_flat_per_path (self : List Doc) (traversal_paths : TPSpec)
    (filter_fn : Option (Doc → Bool)) : List (List Doc) × Option PyErr :=
  if _check_traversal_path_type traversal_paths then
    let r := perPathGen filter_fn self (TPSpec.paths traversal_paths)
    (r.1, r.2.map PyErr.valueError)
  else
    ([], some PyErr.typeError)

/-- The result of `traverse_flat`: either `self` itself is returned
(`sameRef`, no new object), or a newly flattened collection (`freshArr`),
or an error is raised. -/
inductive FlatResult : Type where
  | sameRef (c : List Doc) : FlatResult
  | freshArr (c : List Doc) : FlatResult
  | err (e : PyErr) : FlatResult

/-- `TraversableSequence.traverse_flat(self, traversal_paths,
filter_fn)`: after the type check, if the specification is exactly one
path `r` and there is no filter function, `self` is returned unchanged;
otherwise the full traversal is materialized and flattened. -/
def traverse_flat (self : List Doc) (traversal_paths : TPSpec)
    (filter_fn : Option (Doc → Bool)) : FlatResult :=
  if _check_traversal_path_type traversal_paths then
    match traversal_paths, filter_fn with
    | .listSpec [.str ['r']], none => .sameRef self
    | tp, f =>
      let r := seqResults ((TPSpec.paths tp).map (fun p => _traverse f p self))
      match r.2 with
      | some e => .err (PyErr.valueError e)
      | none => .freshArr (_flatten (r.1.map Yielded.coll))
  else
    .err PyErr.typeError

/-- Python list slicing `l[a:b]` (for `0 ≤ a ≤ b`): the elements at
indices `a, ..., b-1` that exist. -/
def pySlice (l : List Doc) (a b : Nat) : List Doc :=
  (l.drop a).take (b - a)

/-- The legacy filter of `batch`'s `require_attr` mode: for the
array-valued attributes `embedding` and `blob` the element passes when
`getattr(d, require_attr) is not None`; for any other attribute it passes
when `getattr(d, require_attr)` is truthy. -/
def requireAttrPasses (require_attr : String) (d : Doc) : Bool :=
  if require_attr = "embedding" ∨ require_attr = "blob" then
    match d.getattr require_attr with
    | .pyNone => false
    | .pyVal _ => true
  else
    (d.getattr require_attr).truthy

/-- The accumulation loop of `batch`'s legacy mode: `_batch` collects the
passing documents; whenever `len(_batch) == batch_size` it is yielded and
reset; a final non-empty `_batch` is yielded after the loop. -/
def legacyLoop (require_attr : String) (batch_size : Nat) :
    List Doc → List Doc → List (List Doc)
  | [], acc => if acc.isEmpty then [] else [acc]
  | d :: rest, acc =>
    let acc' := if requireAttrPasses require_attr d then acc ++ [d] else acc
    if acc'.length = batch_size then acc' :: legacyLoop require_attr batch_size rest []
    else legacyLoop require_attr batch_size rest acc'

/-- The default (no `require_attr`) branch of `batch`: `N = len(self)`,
`ix = np.arange(N)` (shuffled in place when `shuffle` is set, but never
read afterwards), `n_batches = ceil(N / batch_size)`, and the yielded
chunks are `DocumentArray(docs[i*batch_size : (i+1)*batch_size])`. -/
def defaultModeChunks (self docs : List Doc) (batch_size : Nat) (shuffle : Bool)
    (perm : List Nat) : List (List Doc) × Option PyErr :=
  let N := self.length
  let _ix := if shuffle then perm else List.range N
  let n_batches := (N + batch_size - 1) / batch_size
  ((List.range n_batches).map
    (fun i => pySlice docs (i * batch_size) ((i + 1) * batch_size)), none)

/-- `TraversableSequence.batch(self, batch_size, traversal_paths,
require_attr, shuffle)`.  `perm` models the delegated random source: the
content of the index array `ix` after `np.random.shuffle(ix)`.  Faithful
to the source: when `traversal_paths` is truthy, `docs` is the
`traverse_flat` result but `N` is still `len(self)`; in the default mode
`ix` is computed (and shuffled when `shuffle` is set) but never read; the
legacy mode is taken when `require_attr` is truthy. -/
def batch (self : List Doc) (batch_size : Int) (traversal_paths : Option TPSpec)
    (require_attr : Option String) (shuffle : Bool) (perm : List Nat) :
    List (List Doc) × Option PyErr :=
  if ¬ (0 < batch_size) then ([], some PyErr.batchSizeError)
  else
    let docsE : Except PyErr (List Doc) :=
      match traversal_paths with
      | some tp =>
        if tp.truthy then
          if _check_traversal_path_type tp then
            match traverse_flat self tp none with
            | .sameRef c => .ok c
            | .freshArr c => .ok c
            | .err e => .error e
          else .error PyErr.typeError
        else .ok self
      | none => .ok self
    match docsE with
    | .error e => ([], some e)
    | .ok docs =>
      match require_attr with
      | some ra =>
        if ra = "" then  -- `if not require_attr:` an empty string is falsy
          defaultModeChunks self docs batch_size.toNat shuffle perm
        else
          (legacyLoop ra batch_size.toNat docs [], none)
      | none => defaultModeChunks self docs batch_size.toNat shuffle perm

/-- Reference splitting of a list into consecutive chunks of `bs`
elements, the last chunk possibly smaller, no empty chunks.  Used to
characterize the legacy accumulation loop of `batch`. -/
def chunksOf (bs : Nat) (l : List Doc) : List (List Doc) :=
  if hstop : l.isEmpty ∨ bs = 0 then []
  else l.take bs :: chunksOf bs (l.drop bs)
termination_by l.length
decreasing_by
  rcases not_or.mp hstop with ⟨h1, h2⟩
  simp only [List.length_drop]
  have hl : 0 < l.length := List.length_pos.mpr (by simpa using h1)
  have hb : 0 < bs := Nat.pos_of_ne_zero h2
  omega

/-- The collections that already exist in the source tree rooted at the
collection `root`: `root` itself, and the chunks or matches collection of
any document contained in a reachable collection. -/
inductive SubColl (root : List Doc) : List Doc → Prop where
  | source : SubColl root root
  | chunk (c : List Doc) (d : Doc) : SubColl root c → d ∈ c → SubColl root d.chunks
  | mtch (c : List Doc) (d : Doc) : SubColl root c → d ∈ c → SubColl root d.matches

/-! Concrete documents used for counterexamples and witnesses.
The tree of the spec's §8 example: `dA` has chunks `[dB, dC]`, `dB` has
chunks `[dD]`; `dC` and `dD` are leaves. -/

/-- Leaf document D. -/
def dD : Doc := .node 3 [] [] []

/-- Leaf document C. -/
def dC : Doc := .node 2 [] [] []

/-- Document B with chunks `[dD]`. -/
def dB : Doc := .node 1 [dD] [] []

/-- Document A with chunks `[dB, dC]`. -/
def dA : Doc := .node 0 [dB, dC] [] []

/-- A document with a present, truthy `embedding` attribute. -/
def e1 : Doc := .node 10 [] [] [("embedding", .pyVal true)]

/-- A document with no `embedding` attribute at all (absent). -/
def e2 : Doc := .node 11 [] [] []

/-- A document with a present but empty (falsy) `embedding` array. -/
def e3 : Doc := .node 12 [] [] [("embedding", .pyVal false)]

/-- A document whose `embedding` attribute is `None`. -/
def e4 : Doc := .node 13 [] [] [("embedding", .pyNone)]

/-- A second document with a present, truthy `embedding` attribute. -/
def e5 : Doc := .node 14 [] [] [("embedding", .pyVal true)]

/-! Helper lemmas. -/

/-- Sequencing error-free generator runs concatenates their yields. -/
theorem seqResults_no_err (rs : List (List Yielded × Option Char))
    (h : ∀ r ∈ rs, r.2 = none) :
    seqResults rs = ((rs.map Prod.fst).flatten, none) := by
  induction rs with
  | nil => rfl
  | cons r rest ih =>
    have h1 : r.2 = none := h r (List.mem_cons_self _ _)
    have h2 := ih (fun x hx => h x (List.mem_cons_of_mem _ hx))
    simp [seqResults, h1, h2]

/-- If sequencing raised, some run raised the same error. -/
theorem seqResults_snd_some (rs : List (List Yielded × Option Char)) (e : Char)
    (h : (seqResults rs).2 = some e) : ∃ r ∈ rs, r.2 = some e := by
  induction rs with
  | nil => simp [seqResults] at h
  | cons r rest ih =>
    rcases h2 : r.2 with _ | e2
    · simp only [seqResults, h2] at h
      obtain ⟨x, hx, hxe⟩ := ih h
      exact ⟨x, List.mem_cons_of_mem _ hx, hxe⟩
    · simp only [seqResults, h2] at h
      exact ⟨r, List.mem_cons_self _ _, by rw [h2, h]⟩

/-- Every yield of a sequenced run is a yield of one of its runs. -/
theorem seqResults_mem_fst (rs : List (List Yielded × Option Char)) (y : Yielded)
    (h : y ∈ (seqResults rs).1) : ∃ r ∈ rs, y ∈ r.1 := by
  induction rs with
  | nil => simp [seqResults] at h
  | cons r rest ih =>
    rcases h2 : r.2 with _ | e2
    · simp only [seqResults, h2] at h
      rcases List.mem_append.mp h with h3 | h3
      · exact ⟨r, List.mem_cons_self _ _, h3⟩
      · obtain ⟨x, hx, hxy⟩ := ih h3
        exact ⟨x, List.mem_cons_of_mem _ hx, hxy⟩
    · simp only [seqResults, h2] at h
      exact ⟨r, List.mem_cons_self _ _, h⟩

/-- Step equation: an `r` symbol recurses on the same collection. -/
theorem _traverse_r (f : Option (Doc → Bool)) (rest : List Char) (docs : List Doc) :
    _traverse f ('r' :: rest) docs = _traverse f rest docs := rfl

/-- Step equation: an `m` symbol recurses on each document's matches. -/
theorem _traverse_m (f : Option (Doc → Bool)) (rest : List Char) (docs : List Doc) :
    _traverse f ('m' :: rest) docs
      = seqResults (docs.map (fun d => _traverse f rest d.matches)) := rfl

/-- Step equation: a `c` symbol recurses on each document's chunks. -/
theorem _traverse_c (f : Option (Doc → Bool)) (rest : List Char) (docs : List Doc) :
    _traverse f ('c' :: rest) docs
      = seqResults (docs.map (fun d => _traverse f rest d.chunks)) := rfl

/-- Step equation: any other symbol raises at once, yielding nothing. -/
theorem _traverse_invalid (f : Option (Doc → Bool)) (loc : Char) (rest : List Char)
    (docs : List Doc) (h1 : loc ≠ 'r') (h2 : loc ≠ 'm') (h3 : loc ≠ 'c') :
    _traverse f (loc :: rest) docs = ([], some loc) := by
  simp only [_traverse]
  rw [if_neg h1, if_neg h2, if_neg h3]

/-- A traversal along a path made only of `r`, `c`, `m` raises no error. -/
theorem _traverse_no_err (f : Option (Doc → Bool)) : ∀ (path : List Char),
    (∀ ch ∈ path, ch = 'r' ∨ ch = 'c' ∨ ch = 'm') →
    ∀ docs : List Doc, (_traverse f path docs).2 = none := by
  intro path
  induction path with
  | nil => intro _ docs; cases f <;> rfl
  | cons loc rest ih =>
    intro h docs
    have hrest : ∀ ch ∈ rest, ch = 'r' ∨ ch = 'c' ∨ ch = 'm' :=
      fun ch hch => h ch (List.mem_cons_of_mem _ hch)
    rcases h loc (List.mem_cons_self _ _) with h1 | h1 | h1 <;> subst h1
    · rw [_traverse_r]
      exact ih hrest docs
    · rw [_traverse_c]
      have : ∀ r ∈ docs.map (fun d => _traverse f rest d.chunks), r.2 = none := by
        intro r hr
        obtain ⟨d, _, rfl⟩ := List.mem_map.mp hr
        exact ih hrest d.chunks
      rw [seqResults_no_err _ this]
    · rw [_traverse_m]
      have : ∀ r ∈ docs.map (fun d => _traverse f rest d.matches), r.2 = none := by
        intro r hr
        obtain ⟨d, _, rfl⟩ := List.mem_map.mp hr
        exact ih hrest d.matches
      rw [seqResults_no_err _ this]

/-- When a traversal raises, the raised character is a character of the
path and lies outside the alphabet `{r, c, m}`. -/
theorem _traverse_err_char (f : Option (Doc → Bool)) : ∀ (path : List Char)
    (docs : List Doc) (e : Char), (_traverse f path docs).2 = some e →
    e ∈ path ∧ e ≠ 'r' ∧ e ≠ 'c' ∧ e ≠ 'm' := by
  intro path
  induction path with
  | nil => intro docs e h; cases f <;> simp [_traverse] at h
  | cons loc rest ih =>
    intro docs e h
    by_cases h1 : loc = 'r'
    · subst h1
      rw [_traverse_r] at h
      obtain ⟨hmem, hne⟩ := ih docs e h
      exact ⟨List.mem_cons_of_mem _ hmem, hne⟩
    · by_cases h2 : loc = 'm'
      · subst h2
        rw [_traverse_m] at h
        obtain ⟨r, hr, hre⟩ := seqResults_snd_some _ _ h
        obtain ⟨d, _, rfl⟩ := List.mem_map.mp hr
        obtain ⟨hmem, hne⟩ := ih _ e hre
        exact ⟨List.mem_cons_of_mem _ hmem, hne⟩
      · by_cases h3 : loc = 'c'
        · subst h3
          rw [_traverse_c] at h
          obtain ⟨r, hr, hre⟩ := seqResults_snd_some _ _ h
          obtain ⟨d, _, rfl⟩ := List.mem_map.mp hr
          obtain ⟨hmem, hne⟩ := ih _ e hre
          exact ⟨List.mem_cons_of_mem _ hmem, hne⟩
        · rw [_traverse_invalid f loc rest docs h1 h2 h3] at h
          simp only [Option.some.injEq] at h
          subst h
          exact ⟨List.mem_cons_self _ _, h1, h3, h2⟩

/-- Without a filter function, every collection the traversal engine
yields is an existing collection of the source tree (yielded by
reference): the collection traversal started from, or the chunks or
matches collection of a reachable document. -/
theorem _traverse_yields_sameRef (root : List Doc) : ∀ (path : List Char)
    (docs : List Doc), SubColl root docs →
    ∀ y ∈ (_traverse none path docs).1, ∃ c, y = .sameRef c ∧ SubColl root c := by
  intro path
  induction path with
  | nil =>
    intro docs hsub y hy
    simp only [_traverse, List.mem_singleton] at hy
    exact ⟨docs, hy, hsub⟩
  | cons loc rest ih =>
    intro docs hsub y hy
    by_cases h1 : loc = 'r'
    · subst h1
      rw [_traverse_r] at hy
      exact ih docs hsub y hy
    · by_cases h2 : loc = 'm'
      · subst h2
        rw [_traverse_m] at hy
        obtain ⟨r, hr, hyr⟩ := seqResults_mem_fst _ _ hy
        obtain ⟨d, hd, rfl⟩ := List.mem_map.mp hr
        exact ih d.matches (SubColl.mtch docs d hsub hd) y hyr
      · by_cases h3 : loc = 'c'
        · subst h3
          rw [_traverse_c] at hy
          obtain ⟨r, hr, hyr⟩ := seqResults_mem_fst _ _ hy
          obtain ⟨d, hd, rfl⟩ := List.mem_map.mp hr
          exact ih d.chunks (SubColl.chunk docs d hsub hd) y hyr
        · rw [_traverse_invalid none loc rest docs h1 h2 h3] at hy
          simp at hy

/-- With a filter function, every collection the traversal engine yields
is a newly constructed one. -/
theorem _traverse_yields_fresh (f : Doc → Bool) : ∀ (path : List Char)
    (docs : List Doc), ∀ y ∈ (_traverse (some f) path docs).1,
    ∃ c, y = .fresh c := by
  intro path
  induction path with
  | nil =>
    intro docs y hy
    simp only [_traverse, List.mem_singleton] at hy
    exact ⟨docs.filter f, hy⟩
  | cons loc rest ih =>
    intro docs y hy
    by_cases h1 : loc = 'r'
    · subst h1
      rw [_traverse_r] at hy
      exact ih docs y hy
    · by_cases h2 : loc = 'm'
      · subst h2
        rw [_traverse_m] at hy
        obtain ⟨r, hr, hyr⟩ := seqResults_mem_fst _ _ hy
        obtain ⟨d, _, rfl⟩ := List.mem_map.mp hr
        exact ih d.matches y hyr
      · by_cases h3 : loc = 'c'
        · subst h3
          rw [_traverse_c] at hy
          obtain ⟨r, hr, hyr⟩ := seqResults_mem_fst _ _ hy
          obtain ⟨d, _, rfl⟩ := List.mem_map.mp hr
          exact ih d.chunks y hyr
        · rw [_traverse_invalid (some f) loc rest docs h1 h2 h3] at hy
          simp at hy

/-- A one-step `c` traversal with no filter yields, in order, each
document's chunks collection by reference. -/
theorem _traverse_c_eq (docs : List Doc) :
    _traverse none ['c'] docs
      = (docs.map (fun d => Yielded.sameRef d.chunks), none) := by
  induction docs with
  | nil => rfl
  | cons d t iht =>
    rw [_traverse_c] at iht ⊢
    simp only [List.map_cons]
    rw [show seqResults
          (_traverse none [] d.chunks :: t.map (fun x => _traverse none [] x.chunks))
        = (Yielded.sameRef d.chunks
            :: (seqResults (t.map (fun x => _traverse none [] x.chunks))).1,
          (seqResults (t.map (fun x => _traverse none [] x.chunks))).2) from rfl]
    rw [iht]

/-- `chunksOf` covers the list: concatenating the chunks restores it. -/
theorem chunksOf_flatten (bs : Nat) (hbs : 0 < bs) :
    ∀ l : List Doc, (chunksOf bs l).flatten = l := by
  have key : ∀ (n : Nat) (l : List Doc), l.length ≤ n →
      (chunksOf bs l).flatten = l := by
    intro n
    induction n with
    | zero =>
      intro l hl
      have : l = [] := List.eq_nil_of_length_eq_zero (Nat.le_zero.mp hl)
      subst this
      rw [chunksOf]
      simp
    | succ n ih =>
      intro l hl
      rw [chunksOf]
      by_cases h : l.isEmpty = true ∨ bs = 0
      · rcases h with h | h
        · simp [List.isEmpty_iff.mp h]
        · omega
      · rw [dif_neg h]
        have hne : l ≠ [] := by
          intro hc
          exact h (Or.inl (by simp [hc]))
        rw [List.flatten_cons]
        rw [ih (l.drop bs) (by
          have : 0 < l.length := List.length_pos.mpr hne
          simp only [List.length_drop]
          omega)]
        exact List.take_append_drop bs l
  intro l
  exact key l.length l le_rfl

/-- The legacy accumulation loop of `batch`, started with a partial batch
`acc` shorter than `batch_size`, emits exactly the `batch_size`-chunks of
`acc` followed by the passing documents. -/
theorem legacyLoop_chunksOf (ra : String) (bs : Nat) (hbs : 0 < bs) :
    ∀ (l : List Doc) (acc : List Doc), acc.length < bs →
    legacyLoop ra bs l acc = chunksOf bs (acc ++ l.filter (requireAttrPasses ra)) := by
  intro l
  induction l with
  | nil =>
    intro acc hacc
    simp only [legacyLoop, List.filter_nil, List.append_nil]
    by_cases h : acc = []
    · subst h
      rw [chunksOf]
      simp
    · rw [chunksOf, dif_neg (by
        rintro (hcon | hcon)
        · simp [h] at hcon
        · omega)]
      rw [List.take_of_length_le (le_of_lt hacc),
        List.drop_eq_nil_of_le (le_of_lt hacc), chunksOf]
      simp [h]
  | cons d t ih =>
    intro acc hacc
    simp only [legacyLoop, List.filter_cons]
    by_cases hp : requireAttrPasses ra d = true
    · simp only [hp, if_true]
      by_cases hfull : (acc ++ [d]).length = bs
      · rw [if_pos hfull, List.append_cons acc d (t.filter (requireAttrPasses ra)),
          chunksOf, dif_neg (by
            rintro (hcon | hcon)
            · simp at hcon
            · omega),
          List.take_left' hfull, List.drop_left' hfull,
          ih [] (by simpa using hbs), List.nil_append]
      · have hlt : (acc ++ [d]).length < bs := by
          simp only [List.length_append, List.length_singleton] at hfull ⊢
          omega
        rw [if_neg hfull, ih (acc ++ [d]) hlt]
        congr 1
        simp
    · have hp2 : requireAttrPasses ra d = false := by simpa using hp
      simp only [hp2, Bool.false_eq_true, if_false]
      rw [if_neg (Nat.ne_of_lt hacc)]
      exact ih acc hacc

/-! Claim theorems. -/

/-- C1: evaluation of `batch`'s default mode at the failing input.  The
source collection `[dA]` has length 1, its `traverse_flat` result along
path `c` is the two-document collection `[dB, dC]`, yet
`batch(batch_size=1, traversal_paths=['c'])` yields a single chunk
`[dB]`: the code computes the chunk count from `len(self)`, not from the
collection being batched, so `dC` is dropped — contradicting the claimed
`ceil(N / batch_size)` chunks over the traversed collection. -/
theorem C1_batch_uses_len_self :
    batch [dA] 1 (some (.listSpec [.str ['c']])) none false [] = ([[dB]], none)
    ∧ traverse_flat [dA] (.listSpec [.str ['c']]) none = .freshArr [dB, dC] :=
  ⟨rfl, rfl⟩

/-- C2: evaluation of `batch`'s default mode with `shuffle=True` and the
delegated random source producing the permutation `[1, 0]`.  The claim
requires the chunks `[[dC], [dB]]` (permuted order); the code yields
`[[dB], [dC]]` (original order) because the shuffled index array is
computed but never applied to the slicing. -/
theorem C2_shuffle_has_no_effect_eval :
    batch [dB, dC] 1 none none true [1, 0] = ([[dB], [dC]], none) := rfl

/-- C3: `traverse_flat` with the single path `r` and no filter returns the
input collection itself (by reference, no copy), while with the single
path `c` it always returns a newly constructed flattened collection
(the concatenation of the documents' chunks), never the input object. -/
theorem C3_traverse_flat_identity (docs : List Doc) :
    traverse_flat docs (.listSpec [.str ['r']]) none = .sameRef docs
    ∧ traverse_flat docs (.listSpec [.str ['c']]) none
        = .freshArr ((docs.map Doc.chunks).flatten) := by
  constructor
  · rfl
  · have h1 : traverse_flat docs (.listSpec [.str ['c']]) none
        = (match (seqResults [_traverse none ['c'] docs]).2 with
          | some e => FlatResult.err (PyErr.valueError e)
          | none => FlatResult.freshArr (_flatten
              ((seqResults [_traverse none ['c'] docs]).1.map Yielded.coll))) := rfl
    rw [h1, _traverse_c_eq docs]
    simp [seqResults, _flatten, Yielded.coll, List.map_map, Function.comp_def]

/-- C4 counterexample: over the tree where `dA` has chunks `[dB, dC]` and
`dB` has chunks `[dD]`, `traverse(["c", "cc"])` yields three collections
`[dB, dC]`, `[dD]` and the empty collection (the empty chunks of `dC` at
the end of path `cc` are yielded too), not the claimed two. -/
theorem C4_counterexample :
    traverse [dA] (.listSpec [.str ['c'], .str ['c','c']]) none
      = ([.sameRef [dB, dC], .sameRef [dD], .sameRef []], none)
    ∧ (traverse [dA] (.listSpec [.str ['c'], .str ['c','c']]) none).1.length ≠ 2 :=
  ⟨rfl, by decide⟩

/-- C4 amended: paths of a specification are processed independently and
each path's complete yield sequence comes before the next path's, in
specification order (for valid paths the total output is the
concatenation of the per-path outputs); on the concrete tree,
`traverse(["cc"])` yields `[dD]` then an empty collection, and
`traverse(["c", "cc"])` yields `[dB, dC]`, `[dD]`, then an empty
collection. -/
theorem C4_paths_processed_in_order :
    (∀ (docs : List Doc) (ps : List (List Char)) (f : Option (Doc → Bool)),
      ps ≠ [] →
      (∀ p ∈ ps, ∀ ch ∈ p, ch = 'r' ∨ ch = 'c' ∨ ch = 'm') →
      traverse docs (.listSpec (ps.map PyVal.str)) f
        = ((ps.map (fun p => (_traverse f p docs).1)).flatten, none))
    ∧ traverse [dA] (.listSpec [.str ['c','c']]) none
        = ([.sameRef [dD], .sameRef []], none)
    ∧ traverse [dA] (.listSpec [.str ['c'], .str ['c','c']]) none
        = ([.sameRef [dB, dC], .sameRef [dD], .sameRef []], none) := by
  refine ⟨?_, rfl, rfl⟩
  intro docs ps f hne hvalid
  have hcheck : _check_traversal_path_type (.listSpec (ps.map PyVal.str)) = true := by
    cases ps with
    | nil => exact absurd rfl hne
    | cons p t => simp [_check_traversal_path_type]
  have hpaths : (TPSpec.listSpec (ps.map PyVal.str)).paths = ps := by
    simp [TPSpec.paths, List.filterMap_map, Function.comp_def]
  simp only [traverse]
  rw [if_pos hcheck, hpaths]
  have herr : ∀ r ∈ ps.map (fun p => _traverse f p docs), r.2 = none := by
    intro r hr
    obtain ⟨p, hp, rfl⟩ := List.mem_map.mp hr
    exact _traverse_no_err f p (hvalid p hp) docs
  rw [seqResults_no_err _ herr]
  simp [List.map_map, Function.comp_def]

/-- C4 witness: the amended concatenation law applied at a concrete
input. -/
theorem C4_witness :
    traverse [dA] (.listSpec ([['c']].map PyVal.str)) none
      = (([['c']].map (fun p => (_traverse none p [dA]).1)).flatten, none) :=
  C4_paths_processed_in_order.1 [dA] [['c']] none (by decide) (by decide)

/-- C5: in legacy mode (`require_attr` truthy), `batch` yields exactly the
`batch_size`-chunks of the subsequence of passing documents, in source
order, the last chunk possibly smaller and always non-empty; for
`embedding` and `blob` a document passes iff the attribute is not
`None` (a present-but-falsy array passes), for any other attribute iff
the value is truthy; the chunks concatenate back to exactly the passing
documents. -/
theorem C5_legacy_filter_batches (docs : List Doc) (batch_size : Int)
    (ra : String) (perm : List Nat) (hbs : 0 < batch_size) (hra : ra ≠ "") :
    batch docs batch_size none (some ra) false perm
      = (chunksOf batch_size.toNat (docs.filter (requireAttrPasses ra)), none)
    ∧ (chunksOf batch_size.toNat (docs.filter (requireAttrPasses ra))).flatten
        = docs.filter (requireAttrPasses ra)
    ∧ (∀ d : Doc, requireAttrPasses "embedding" d = true
        ↔ d.getattr "embedding" ≠ .pyNone)
    ∧ (∀ d : Doc, requireAttrPasses "blob" d = true ↔ d.getattr "blob" ≠ .pyNone)
    ∧ (ra ≠ "embedding" → ra ≠ "blob" →
        ∀ d : Doc, requireAttrPasses ra d = (d.getattr ra).truthy) := by
  have hbsn : 0 < batch_size.toNat := by omega
  refine ⟨?_, chunksOf_flatten _ hbsn _, ?_, ?_, ?_⟩
  · simp only [batch]
    rw [if_neg (not_not_intro hbs)]
    show (if ra = "" then defaultModeChunks docs docs batch_size.toNat false perm
        else (legacyLoop ra batch_size.toNat docs [], none))
      = (chunksOf batch_size.toNat (docs.filter (requireAttrPasses ra)), none)
    rw [if_neg hra,
      legacyLoop_chunksOf ra batch_size.toNat hbsn docs [] (by simpa using hbsn)]
    simp
  · intro d
    rw [show requireAttrPasses "embedding" d
        = (match d.getattr "embedding" with
          | AttrVal.pyNone => false
          | AttrVal.pyVal _ => true) from rfl]
    cases h : d.getattr "embedding" <;> simp [h]
  · intro d
    rw [show requireAttrPasses "blob" d
        = (match d.getattr "blob" with
          | AttrVal.pyNone => false
          | AttrVal.pyVal _ => true) from rfl]
    cases h : d.getattr "blob" <;> simp [h]
  · intro h1 h2 d
    simp only [requireAttrPasses]
    rw [if_neg (by
      rintro (hc | hc)
      · exact h1 hc
      · exact h2 hc)]

/-- C5 witness: legacy batching at a concrete input (five documents, two
with absent/None `embedding`, three with present ones, one of them
empty-but-present). -/
theorem C5_witness :
    batch [e1, e2, e3, e4, e5] 10 none (some "embedding") false []
      = (chunksOf (10 : Int).toNat
          ([e1, e2, e3, e4, e5].filter (requireAttrPasses "embedding")), none) :=
  (C5_legacy_filter_batches [e1, e2, e3, e4, e5] 10 "embedding" []
    (by decide) (by decide)).1

/-- C6 counterexample: a specification containing the empty path string
passes the type check, and `traverse` with it completes without any
error (the empty path immediately yields the source collection), so an
empty-string element does not make the operations fail. -/
theorem C6_counterexample :
    _check_traversal_path_type (.listSpec [.str []]) = true
    ∧ traverse [dA] (.listSpec [.str []]) none = ([.sameRef [dA]], none)
    ∧ traverse_flat [dA] (.listSpec [.str []]) none = .freshArr [dA] :=
  ⟨rfl, rfl, rfl⟩

/-- C6 amended: the validator accepts exactly the non-empty sequences,
not themselves a bare string, all of whose elements are strings (an
empty path string is allowed); whenever the check fails, `traverse`,
`traverse_flat_per_path` and `traverse_flat` fail with the
invalid-argument error, and whenever it succeeds they do not raise that
error. -/
theorem C6_validation (tp : TPSpec) (docs : List Doc) (f : Option (Doc → Bool)) :
    (_check_traversal_path_type tp = true ↔
      ∃ l, tp = .listSpec l ∧ l ≠ [] ∧ ∀ v ∈ l, ∃ s, v = .str s)
    ∧ (_check_traversal_path_type tp = false →
        (traverse docs tp f).2 = some .typeError
        ∧ (traverse_flat_per_path docs tp f).2 = some .typeError
        ∧ traverse_flat docs tp f = .err .typeError)
    ∧ (_check_traversal_path_type tp = true →
        (traverse docs tp f).2 ≠ some .typeError
        ∧ (traverse_flat_per_path docs tp f).2 ≠ some .typeError
        ∧ traverse_flat docs tp f ≠ .err .typeError) := by
  refine ⟨?_, ?_, ?_⟩
  · cases tp with
    | strSpec s => simp [_check_traversal_path_type]
    | listSpec l =>
      simp only [_check_traversal_path_type, Bool.and_eq_true, List.all_eq_true]
      constructor
      · rintro ⟨h1, h2⟩
        refine ⟨l, rfl, ?_, ?_⟩
        · intro hc
          subst hc
          simp at h1
        · intro v hv
          have hval := h2 v hv
          cases v with
          | str s => exact ⟨s, rfl⟩
          | nonStr t => simp at hval
      · rintro ⟨l2, heq, hne2, hall⟩
        injection heq with hl
        subst hl
        refine ⟨?_, ?_⟩
        · cases l with
          | nil => exact absurd rfl hne2
          | cons a t => rfl
        · intro v hv
          obtain ⟨s, rfl⟩ := hall v hv
          rfl
  · intro hfalse
    refine ⟨?_, ?_, ?_⟩
    · simp [traverse, hfalse]
    · simp [traverse_flat_per_path, hfalse]
    · simp [traverse_flat, hfalse]
  · intro htrue
    refine ⟨?_, ?_, ?_⟩
    · simp only [traverse, htrue, if_true]
      cases h2 : (seqResults ((TPSpec.paths tp).map (fun p => _traverse f p docs))).2
        <;> simp [h2]
    · simp only [traverse_flat_per_path, htrue, if_true]
      cases h2 : (perPathGen f docs (TPSpec.paths tp)).2 <;> simp [h2]
    · simp only [traverse_flat, htrue, if_true]
      split
      · simp
      · split <;> simp

/-- C6 witness: a bare string specification fails the check and all three
operations raise the invalid-argument error on it. -/
theorem C6_witness :
    (traverse [] (.strSpec ['r']) none).2 = some PyErr.typeError
    ∧ (traverse_flat_per_path [] (.strSpec ['r']) none).2 = some PyErr.typeError
    ∧ traverse_flat [] (.strSpec ['r']) none = .err PyErr.typeError :=
  (C6_validation (.strSpec ['r']) [] none).2.1 rfl

/-- C7 counterexample: the path `ccx` contains the invalid character
`x`, yet traversing it over `[dC]` (a document with no chunks) completes
with no yields and no error — the invalid character is never consumed
because the enclosing `c` loop iterates over an empty collection. -/
theorem C7_counterexample :
    ('x' ∈ ['c', 'c', 'x'] ∧ 'x' ≠ 'r' ∧ 'x' ≠ 'c' ∧ 'x' ≠ 'm')
    ∧ traverse [dC] (.listSpec [.str ['c', 'c', 'x']]) none = ([], none) :=
  ⟨by decide, rfl⟩

/-- C7 amended: a path made only of `r`, `c`, `m` never raises the
invalid-path error; when traversal does raise, the raised character is a
character of the path outside `{r, c, m}` (the error identifies it); and
the error is lazy: results produced before the invalid character is
consumed are yielded first, as the concrete two-path run `["r", "x"]`
shows — the first path's yield precedes the error of the second. -/
theorem C7_invalid_path_char (f : Option (Doc → Bool)) (path : List Char)
    (docs : List Doc) :
    ((∀ ch ∈ path, ch = 'r' ∨ ch = 'c' ∨ ch = 'm') →
      (_traverse f path docs).2 = none)
    ∧ (∀ e, (_traverse f path docs).2 = some e →
        e ∈ path ∧ e ≠ 'r' ∧ e ≠ 'c' ∧ e ≠ 'm')
    ∧ traverse docs (.listSpec [.str ['r'], .str ['x']]) none
        = ([.sameRef docs], some (.valueError 'x')) :=
  ⟨fun h => _traverse_no_err f path h docs,
   fun e he => _traverse_err_char f path docs e he,
   rfl⟩

/-- C7 witness: the valid path `rcm` raises nothing over `[dA]`, and the
error raised by `cx` over `[dC]` is the out-of-alphabet character `x`. -/
theorem C7_witness :
    (_traverse none ['r', 'c', 'm'] [dA]).2 = none
    ∧ ('x' ∈ ['c', 'x'] ∧ 'x' ≠ 'r' ∧ 'x' ≠ 'c' ∧ 'x' ≠ 'm') :=
  ⟨(C7_invalid_path_char none ['r', 'c', 'm'] [dA]).1 (by decide),
   (C7_invalid_path_char none ['c', 'x'] [dC]).2.1 'x' rfl⟩

/-- C8: at the end of a path, with no filter the current collection is
yielded as-is (by reference); with a filter a newly built collection is
yielded holding exactly the elements passing the filter, in their
original relative order (a sublist of the source), the source collection
left untouched (the embedding is pure and `List.filter` rebuilds). -/
theorem C8_path_exhausted (L : List Doc) (f : Doc → Bool) :
    _traverse none [] L = ([.sameRef L], none)
    ∧ _traverse (some f) [] L = ([.fresh (L.filter f)], none)
    ∧ (L.filter f).Sublist L
    ∧ ∀ d : Doc, d ∈ L.filter f ↔ d ∈ L ∧ f d = true :=
  ⟨rfl, rfl, List.filter_sublist L, fun _ => List.mem_filter⟩

/-- C9 counterexample: `traverse(["r"])` yields the source collection
object itself, and `traverse(["c"])` yields `dA`'s existing chunks
collection, both by reference (`sameRef`) — not fresh allocations, so
"every collection yielded ... is a fresh allocation, never the source
collection object or one of its existing sub-collections" fails. -/
theorem C9_counterexample :
    traverse [dA] (.listSpec [.str ['r']]) none = ([.sameRef [dA]], none)
    ∧ traverse [dA] (.listSpec [.str ['c']]) none = ([.sameRef [dB, dC]], none) :=
  ⟨rfl, rfl⟩

/-- C9 amended: traversal never mutates the source tree (the embedding is
pure), but without a filter every yielded collection is an existing
collection of the source tree — the source collection itself or the
chunks/matches collection of a reachable document — yielded by
reference; with a filter every yielded collection is freshly
constructed. -/
theorem C9_read_only_and_reference_yields (path : List Char) (docs : List Doc)
    (f : Doc → Bool) :
    (∀ y ∈ (_traverse none path docs).1, ∃ c, y = .sameRef c ∧ SubColl docs c)
    ∧ (∀ y ∈ (_traverse (some f) path docs).1, ∃ c, y = .fresh c) :=
  ⟨fun y hy => _traverse_yields_sameRef docs path docs SubColl.source y hy,
   fun y hy => _traverse_yields_fresh f path docs y hy⟩

/-- C9 witness: the collection `[dD]` yielded by the path `cc` over
`[dA]` is an existing sub-collection of the tree. -/
theorem C9_witness :
    ∃ c, Yielded.sameRef [dD] = Yielded.sameRef c ∧ SubColl [dA] c :=
  (C9_read_only_and_reference_yields ['c', 'c'] [dA] (fun _ => true)).1
    (.sameRef [dD])
    (by
      show Yielded.sameRef [dD] ∈ [Yielded.sameRef [dD], Yielded.sameRef []]
      exact List.mem_cons_self _ _)

/-- C10: in `batch`'s default mode (no `require_attr`, no
`traversal_paths`) the output is completely independent of the `shuffle`
flag and of the permutation produced by the delegated random source: the
shuffled index array is computed but never read. -/
theorem C10_default_mode_shuffle_independent (self : List Doc)
    (batch_size : Int) (perm perm2 : List Nat) :
    batch self batch_size none none true perm
      = batch self batch_size none none false perm2 := rfl

end Jina
